import Mathlib

/-!
# Verification of the tidy-notes metadata enrichment core

Shallow embedding of `src/main.py` (tidy-notes): a tool that enriches
markdown note files with a structured metadata block (`Created`, `Title`,
`Description`).  Pure Python values appearing in the metadata mapping are
modelled by the `Value` type; the insertion-ordered Python `dict` is
modelled by an association list with first-match lookup and in-place
update.  The external text-generation capability (OpenAI agent) is a
function parameter `gen : String → String → String` (title, excerpt);
its fallible variant returns `Except`.  The frontmatter parser and
serializer live in the third-party `frontmatter` library, so they are
modelled from the spec (see `parsePost`, `serializePost`).
-/

set_option autoImplicit false

namespace TidyNotes

/-- A Python scalar value as it can appear in a frontmatter metadata
mapping: a string, an integer (the spec's example of a non-string
value), or `None` (also the result of `dict.get` on a missing key). -/
inductive Value where
  | vStr (s : String)
  | vInt (n : Int)
  | vNone
  deriving DecidableEq, Repr

/-- Python truthiness of a `Value` (`not v` in the source is
`!truthy v`): empty strings, `0` and `None` are falsy. -/
def truthy : Value → Bool
  | .vStr s => s != ""
  | .vInt n => n != 0
  | .vNone => false

/-- Python `str(v)`. -/
def pyStr : Value → String
  | .vStr s => s
  | .vInt n => toString n
  | .vNone => "None"

/-- Python `isinstance(v, str)`. -/
def isStrV : Value → Bool
  | .vStr _ => true
  | _ => false

/-- The insertion-ordered metadata mapping of a frontmatter post
(`post.metadata`, a Python dict). -/
abbrev Metadata := List (String × Value)

/-- `m.get(key)` on a Python dict with default `None`: first matching
entry, `vNone` when the key is absent. -/
def mget : Metadata → String → Value
  | [], _ => .vNone
  | (k, v) :: m, key => if k = key then v else mget m key

/-- `m[key] = v` on a Python dict: replace the value of an existing key
in place (keeping its position), otherwise append the new key at the
end. -/
def mset : Metadata → String → Value → Metadata
  | [], key, v => [(key, v)]
  | (k, w) :: m, key, v => if k = key then (k, v) :: m else (k, w) :: mset m key v

/-- A calendar date, standing in for the `datetime` carried by
`FileData.creation_date`; only `strftime('%Y-%m-%d')` is ever applied
to it. -/
structure Date where
  year : Nat
  month : Nat
  day : Nat
  deriving DecidableEq, Repr

/-- Zero-pad a number to two digits, as `strftime` does for `%m`/`%d`. -/
def pad2 (n : Nat) : String :=
  (if n < 10 then "0" else "") ++ Nat.repr n

/-- Zero-pad a number to four digits, as `strftime` does for `%Y`. -/
def pad4 (n : Nat) : String :=
  (if n < 10 then "000" else if n < 100 then "00" else if n < 1000 then "0" else "")
    ++ Nat.repr n

/-- `d.strftime('%Y-%m-%d')` from line 59 of the source. -/
def fmtDate (d : Date) : String :=
  pad4 d.year ++ "-" ++ pad2 d.month ++ "-" ++ pad2 d.day

/-- A `pathlib.Path`, modelled by the only attribute the core ever
reads: its `stem` (final component, last suffix removed). -/
structure PyPath where
  stem : String
  deriving DecidableEq, Repr

/-- `FileData` (lines 8-11): raw text, path and creation timestamp of a
loaded source file. -/
structure FileData where
  text : String
  path : PyPath
  creation_date : Date
  deriving DecidableEq, Repr

/-- Python `str.title()` on a list of characters: the first cased
character of every run of letters is uppercased, the following letters
are lowercased; other characters are kept and separate words.  The flag
records whether the previous character was a letter. -/
def pyTitleAux : Bool → List Char → List Char
  | _, [] => []
  | prevAlpha, c :: cs =>
    if c.isAlpha then
      (if prevAlpha then c.toLower else c.toUpper) :: pyTitleAux true cs
    else
      c :: pyTitleAux false cs

/-- Python `s.replace('_', ' ')` for the single-character pattern used
by `create_title`. -/
def replUnderscore (cs : List Char) : List Char :=
  cs.map fun c => if c = '_' then ' ' else c

/-- `create_title` (lines 50-52): `file_data.path.stem.title().replace('_', ' ')`. -/
def create_title (file_data : FileData) : String :=
  String.mk (replUnderscore (pyTitleAux false file_data.path.stem.data))

/-- A `frontmatter.Post`: metadata mapping plus body text. -/
structure Post where
  metadata : Metadata
  body : String
  deriving DecidableEq

/-- `describe_text` (lines 32-39): the prompt embeds `text[:2000]` and
the title; the agent call is abstracted as `gen title excerpt`. -/
def describe_text (gen : String → String → String) (text : String) (title : String) : String :=
  gen title (text.take 2000)

/-- The local variable `title` as it stands after lines 61-68 of
`process_post`: the stored `Title` if truthy (coerced with `str(...)`
when it is not a string, `""` when it is `None`), else the title
derived from the filename stem. -/
def usedTitle (file_data : FileData) (post : Post) : String :=
  let t := mget post.metadata "Title"
  if truthy t then
    match t with
    | .vStr s => s
    | .vNone => ""
    | v => pyStr v
  else create_title file_data

/-- The enrichment core, lines 57-75 of `process_post`, acting on an
already parsed post.  Besides the enriched post it returns the list of
calls `(title, excerpt)` made to the description generator, so that
"the generator is (not) invoked" is stated exactly. -/
def enrich (gen : String → String → String) (file_data : FileData) (post : Post) :
    Post × List (String × String) :=
  let m := post.metadata
  let m1 := if truthy (mget m "Created") then m
            else mset m "Created" (.vStr (fmtDate file_data.creation_date))
  let t := mget m1 "Title"
  let title : Value := if truthy t then t else .vStr (create_title file_data)
  let m2 := if truthy t then m1 else mset m1 "Title" (.vStr (create_title file_data))
  let titleS : String :=
    match title with
    | .vStr s => s
    | .vNone => ""
    | v => pyStr v
  if truthy (mget m2 "Description") then ({ metadata := m2, body := post.body }, [])
  else
    ({ metadata := mset m2 "Description" (.vStr (describe_text gen file_data.text titleS)),
       body := post.body },
     [(titleS, file_data.text.take 2000)])

/-! ## Parser and serializer

`frontmatter.loads` / `frontmatter.dumps` belong to the third-party
`frontmatter` library whose code is not part of this repository, so the
Metadata Parser and the Serializer are modelled from the spec. -/

/-- Split a character list at every newline (Python
`text.split('\n')`); never returns the empty list. -/
def splitNl : List Char → List (List Char)
  | [] => [[]]
  | c :: cs =>
    if c = '\n' then [] :: splitNl cs
    else
      match splitNl cs with
      | l :: ls => (c :: l) :: ls
      | [] => [[c]]

/-- Interleave lines with newlines (inverse of `splitNl`). -/
def joinNl : List (List Char) → List Char
  | [] => []
  | [l] => l
  | l :: ls => l ++ '\n' :: joinNl ls

/-- Split a metadata line at the first occurrence of the separator
`": "` into key and value characters; `none` when the line has no such
separator. -/
def splitKV : List Char → Option (List Char × List Char)
  | [] => none
  | [_] => none
  | c :: d :: rest =>
    if c = ':' ∧ d = ' ' then some ([], rest)
    else
      match splitKV (d :: rest) with
      | some (k, v) => some (c :: k, v)
      | none => none

/-- The character list contains no occurrence of `':'` immediately
followed by `' '` (so `splitKV` cannot cut inside it). -/
def noColonSpace : List Char → Bool
  | c :: d :: rest => !(c == ':' && d == ' ') && noColonSpace (d :: rest)
  | _ => true

/-- Modelled from the spec: reading the lines of a leading delimited
metadata block (after its opening `---` line): `key: value` lines up to
a closing `---` line, which must be followed by a blank line; the
remaining lines are the body.  `none` when the block is malformed. -/
def parseBlock : List (List Char) → Option (Metadata × List (List Char))
  | [] => none
  | l :: rest =>
    if l = ['-', '-', '-'] then
      match rest with
      | [] :: bodyLines => some ([], bodyLines)
      | _ => none
    else
      match splitKV l, parseBlock rest with
      | some (k, v), some (m, bodyLines) =>
        some ((String.mk k, Value.vStr (String.mk v)) :: m, bodyLines)
      | _, _ => none

/-- Modelled from the spec: the Metadata Parser (`frontmatter.loads`,
external library).  Recognizes a leading `---`-delimited block of
`key: value` pairs followed by a blank line and body text; on a
malformed or absent block it degrades to an empty mapping with the
entire input as body, and it never fails. -/
def parsePost (s : String) : Post :=
  match splitNl s.data with
  | l :: rest =>
    if l = ['-', '-', '-'] then
      match parseBlock rest with
      | some (m, bodyLines) => { metadata := m, body := String.mk (joinNl bodyLines) }
      | none => { metadata := [], body := s }
    else { metadata := [], body := s }
  | [] => { metadata := [], body := s }

/-- Whether the input starts with a well-formed leading delimited
metadata block, i.e. whether `parsePost` finds one. -/
def hasBlock (s : String) : Bool :=
  match splitNl s.data with
  | l :: rest => l = ['-', '-', '-'] && (parseBlock rest).isSome
  | [] => false

/-- The rendering of one metadata value inside the serialized block. -/
def valOut : Value → String
  | .vStr s => s
  | .vInt n => toString n
  | .vNone => ""

/-- One `key: value` line of the serialized metadata block. -/
def kvLine (kv : String × Value) : List Char :=
  kv.1.data ++ ':' :: ' ' :: (valOut kv.2).data

/-- Modelled from the spec: the Serializer (`frontmatter.dumps`,
external library).  Renders the metadata mapping as a `---`-delimited
block of `key: value` lines, then a blank line, then the unmodified
body. -/
def serializePost (p : Post) : String :=
  String.mk (joinNl (['-', '-', '-'] :: (p.metadata.map kvLine
    ++ ['-', '-', '-'] :: [] :: splitNl p.body.data)))

/-- `save_file` (lines 77-81) writes `serializePost post` over the
file's previous content. -/
def save_file_content (post : Post) : String :=
  serializePost post

/-- `process_post` (lines 54-75): parse the raw text, then enrich. -/
def process_post (gen : String → String → String) (file_data : FileData) :
    Post × List (String × String) :=
  enrich gen file_data (parsePost file_data.text)

/-! ## Fallible per-file processing (`process_file`, lines 96-108)

Errors raised during a file's processing are modelled with `Except`:
`get_file` raises `FileNotFoundError` on a missing path, and the
description-generator call may fail (`GenerationError` or any other
exception); `process_file` catches every error, reports it and leaves
the file untouched. -/

/-- The error taxonomy of per-file processing. -/
inductive PErr where
  | notFound
  | generation
  | unexpected
  deriving DecidableEq, Repr

/-- One file of the filesystem: its content and creation date. -/
structure FsFile where
  content : String
  cdate : Date
  deriving DecidableEq, Repr

/-- The filesystem, a mapping from path to file. -/
abbrev FS := List (String × FsFile)

/-- Look a path up in the filesystem. -/
def fsGet : FS → String → Option FsFile
  | [], _ => none
  | (q, f) :: rest, p => if q = p then some f else fsGet rest p

/-- Overwrite the content of an existing path (`file_path.open('w')` on
a path that `get_file` has just read). -/
def fsWrite : FS → String → String → FS
  | [], _, _ => []
  | (q, f) :: rest, p, c =>
    if q = p then (q, { f with content := c }) :: rest else (q, f) :: fsWrite rest p c

/-- `Path.stem`: final path component with its last suffix removed (a
leading dot does not start a suffix). -/
def pathStem (p : String) : String :=
  let name := (p.splitOn "/").getLastD p
  match name.data.reverse.span (fun c => c != '.') with
  | (_, []) => name
  | (_, [_]) => name
  | (_, _ :: more) => String.mk more.reverse

/-- `get_file` (lines 13-30): fails with `FileNotFoundError` when the
path does not exist, otherwise returns the file's text, path and
creation date. -/
def get_file (fs : FS) (p : String) : Except PErr FileData :=
  match fsGet fs p with
  | none => .error .notFound
  | some f => .ok { text := f.content, path := { stem := pathStem p }, creation_date := f.cdate }

/-- The enrichment core with a fallible description generator: same
steps as `enrich`, but the generator call of line 72 can fail, in which
case the error propagates out of `process_post`. -/
def enrichE (gen : String → String → Except PErr String) (file_data : FileData) (post : Post) :
    Except PErr Post :=
  let m := post.metadata
  let m1 := if truthy (mget m "Created") then m
            else mset m "Created" (.vStr (fmtDate file_data.creation_date))
  let t := mget m1 "Title"
  let title : Value := if truthy t then t else .vStr (create_title file_data)
  let m2 := if truthy t then m1 else mset m1 "Title" (.vStr (create_title file_data))
  let titleS : String :=
    match title with
    | .vStr s => s
    | .vNone => ""
    | v => pyStr v
  if truthy (mget m2 "Description") then .ok { metadata := m2, body := post.body }
  else
    match gen titleS (file_data.text.take 2000) with
    | .ok d => .ok { metadata := mset m2 "Description" (.vStr d), body := post.body }
    | .error e => .error e

/-- The `try` block of `process_file`: load, parse, enrich. -/
def loadAndEnrich (gen : String → String → Except PErr String) (fs : FS) (p : String) :
    Except PErr Post :=
  (get_file fs p).bind fun file_data => enrichE gen file_data (parsePost file_data.text)

/-- `process_file` (lines 96-108): on success the serialized post is
written over the file; every error is caught and the filesystem is left
unchanged. -/
def process_file (gen : String → String → Except PErr String) (fs : FS) (p : String) : FS :=
  match loadAndEnrich gen fs p with
  | .ok post => fsWrite fs p (serializePost post)
  | .error _ => fs

/-- The per-file loop of `main` (lines 114-115): process each file in
turn, never aborting the run on a per-file error. -/
def runFiles (gen : String → String → Except PErr String) (fs : FS) : List String → FS
  | [] => fs
  | p :: rest => runFiles gen (process_file gen fs p) rest

/-- Well-formedness of one metadata entry for serialization: a
recognized key mapped to a single-line string value. -/
def wfEntry (kv : String × Value) : Bool :=
  (kv.1 == "Created" || kv.1 == "Title" || kv.1 == "Description") &&
    match kv.2 with
    | .vStr s => !s.data.contains '\n'
    | _ => false

/-- Well-formedness of a post for serialization: every metadata entry
is a recognized key with a single-line string value (the shape the
Enricher produces for its three keys). -/
def wfPost (p : Post) : Bool :=
  p.metadata.all wfEntry

/-- A metadata entry whose key is none of the three recognized keys
`Created`, `Title`, `Description`. -/
def nonRecognized (kv : String × Value) : Bool :=
  !(kv.1 == "Created" || kv.1 == "Title" || kv.1 == "Description")

/-- Python `s.strip()`: drop whitespace from both ends (the "trimmed"
of the spec's Description contract). -/
def pyStrip (s : String) : String :=
  String.mk (((s.data.dropWhile Char.isWhitespace).reverse.dropWhile
    Char.isWhitespace).reverse)

/-- Modelled from the spec: the Title derivation described as
"underscores replaced with spaces, each word capitalized" — replace
first, then word-capitalize.  Compared below with `create_title`,
which capitalizes first and then replaces. -/
def spec_derived_title (stem : String) : String :=
  String.mk (pyTitleAux false (replUnderscore stem.data))

/-! ## Lemmas about the metadata mapping -/

theorem mget_mset_self (m : Metadata) (k : String) (v : Value) :
    mget (mset m k v) k = v := by
  induction m with
  | nil => simp [mset, mget]
  | cons kv m ih =>
    obtain ⟨k', w⟩ := kv
    by_cases h : k' = k <;> simp [mset, mget, h, ih]

theorem mget_mset_ne (m : Metadata) (k k' : String) (v : Value) (h : k ≠ k') :
    mget (mset m k v) k' = mget m k' := by
  induction m with
  | nil => simp [mset, mget, h]
  | cons kv m ih =>
    obtain ⟨q, w⟩ := kv
    by_cases hq : q = k
    · subst hq; simp [mset, mget, h]
    · simp only [mset, if_neg hq]
      by_cases hq' : q = k' <;> simp [mget, hq', ih]

theorem filter_mset (P : String × Value → Bool) (m : Metadata) (k : String) (v : Value)
    (hP : ∀ w, P (k, w) = false) :
    (mset m k v).filter P = m.filter P := by
  induction m with
  | nil => simp [mset, hP]
  | cons kv m ih =>
    obtain ⟨q, w⟩ := kv
    by_cases hq : q = k
    · subst hq; simp [mset, List.filter, hP]
    · simp [mset, hq, List.filter, ih]

theorem mset_eq_of_mem (m : Metadata) (k : String) (v : Value)
    (hmem : mget m k ≠ .vNone) (hv : mget m k = v) :
    mset m k v = m := by
  induction m with
  | nil => simp [mget] at hmem
  | cons kv m ih =>
    obtain ⟨q, w⟩ := kv
    by_cases hq : q = k
    · subst hq
      simp [mget] at hv
      simp [mset, hv]
    · simp [mget, hq] at hmem hv
      simp [mset, hq, ih hmem hv]

/-! ## Lemmas about line splitting and joining -/

theorem splitNl_ne_nil (cs : List Char) : splitNl cs ≠ [] := by
  cases cs with
  | nil => simp [splitNl]
  | cons c cs =>
    by_cases h : c = '\n'
    · simp [splitNl, h]
    · simp only [splitNl, if_neg h]
      cases splitNl cs <;> simp

theorem joinNl_splitNl (cs : List Char) : joinNl (splitNl cs) = cs := by
  induction cs with
  | nil => rfl
  | cons c cs ih =>
    by_cases h : c = '\n'
    · subst h
      obtain ⟨l, ls, hls⟩ : ∃ l ls, splitNl cs = l :: ls := by
        cases hs : splitNl cs with
        | nil => exact absurd hs (splitNl_ne_nil cs)
        | cons l ls => exact ⟨l, ls, rfl⟩
      simp only [splitNl, if_pos rfl, hls, joinNl]
      rw [← hls, ih]
      rfl
    · obtain ⟨l, ls, hls⟩ : ∃ l ls, splitNl cs = l :: ls := by
        cases hs : splitNl cs with
        | nil => exact absurd hs (splitNl_ne_nil cs)
        | cons l ls => exact ⟨l, ls, rfl⟩
      simp only [splitNl, if_neg h, hls]
      cases ls with
      | nil =>
        simp only [joinNl]
        rw [hls] at ih
        simp only [joinNl] at ih
        rw [ih]
      | cons l2 ls2 =>
        simp only [joinNl, List.cons_append]
        rw [hls] at ih
        simp only [joinNl] at ih
        rw [ih]

theorem not_nl_of_mem_splitNl (cs : List Char) (l : List Char) (hl : l ∈ splitNl cs) :
    '\n' ∉ l := by
  induction cs generalizing l with
  | nil =>
    simp [splitNl] at hl
    simp [hl]
  | cons c cs ih =>
    by_cases h : c = '\n'
    · simp only [splitNl, if_pos h, List.mem_cons] at hl
      rcases hl with hl | hl
      · simp [hl]
      · exact ih l hl
    · simp only [splitNl, if_neg h] at hl
      cases hs : splitNl cs with
      | nil => exact absurd hs (splitNl_ne_nil cs)
      | cons l0 ls =>
        rw [hs, List.mem_cons] at hl
        rcases hl with hl | hl
        · subst hl
          intro hmem
          rcases List.mem_cons.mp hmem with hc | hc
          · exact h hc.symm
          · exact ih l0 (by rw [hs]; exact List.mem_cons_self l0 ls) hc
        · exact ih l (by rw [hs]; exact List.mem_cons_of_mem l0 hl)

theorem splitNl_of_not_nl (l : List Char) (h : '\n' ∉ l) : splitNl l = [l] := by
  induction l with
  | nil => rfl
  | cons c cs ih =>
    have hc : c ≠ '\n' := fun hc => h (by simp [hc])
    have hcs : '\n' ∉ cs := fun hm => h (List.mem_cons_of_mem c hm)
    simp [splitNl, hc, ih hcs]

theorem splitNl_append_nl (l cs : List Char) (h : '\n' ∉ l) :
    splitNl (l ++ '\n' :: cs) = l :: splitNl cs := by
  induction l with
  | nil => simp [splitNl]
  | cons c l ih =>
    have hc : c ≠ '\n' := fun hc => h (by simp [hc])
    have hl : '\n' ∉ l := fun hm => h (List.mem_cons_of_mem c hm)
    simp [splitNl, hc, ih hl]

theorem splitNl_joinNl (ls : List (List Char)) (h : ∀ l ∈ ls, '\n' ∉ l) (hne : ls ≠ []) :
    splitNl (joinNl ls) = ls := by
  induction ls with
  | nil => exact absurd rfl hne
  | cons l ls ih =>
    cases ls with
    | nil =>
      simp only [joinNl]
      exact splitNl_of_not_nl l (h l (List.mem_cons_self l []))
    | cons l2 ls2 =>
      simp only [joinNl]
      rw [splitNl_append_nl _ _ (h l (List.mem_cons_self l _))]
      rw [ih (fun x hx => h x (List.mem_cons_of_mem l hx)) (by simp)]

/-! ## Lemmas about the parser and serializer -/

theorem splitKV_append (k v : List Char) (h : noColonSpace k = true) :
    splitKV (k ++ ':' :: ' ' :: v) = some (k, v) := by
  induction k with
  | nil => rfl
  | cons c k ih =>
    cases k with
    | nil =>
      by_cases hc : c = ':' <;> simp [splitKV, hc]
    | cons d k' =>
      simp only [noColonSpace, Bool.and_eq_true, Bool.not_eq_true'] at h
      obtain ⟨hcd, hrest⟩ := h
      have hcond : ¬(c = ':' ∧ d = ' ') := by
        intro ⟨h1, h2⟩
        rw [h1, h2] at hcd
        simp at hcd
      simp only [List.cons_append] at ih ⊢
      simp only [splitKV, List.append_eq]
      rw [if_neg hcond, ih hrest]

theorem colon_mem_kvLine (kv : String × Value) : ':' ∈ kvLine kv := by
  simp [kvLine]

theorem kvLine_ne_dashes (kv : String × Value) : kvLine kv ≠ ['-', '-', '-'] := by
  intro h
  have := colon_mem_kvLine kv
  rw [h] at this
  simp at this

theorem wfEntry_key (kv : String × Value) (h : wfEntry kv = true) :
    noColonSpace kv.1.data = true ∧ '\n' ∉ kv.1.data := by
  rcases kv with ⟨k, v⟩
  simp only [wfEntry, Bool.and_eq_true, Bool.or_eq_true, beq_iff_eq] at h
  rcases h.1 with (hk | hk) | hk <;> subst hk <;>
    refine ⟨?_, ?_⟩ <;> dsimp only <;> decide

theorem wfEntry_val (kv : String × Value) (h : wfEntry kv = true) :
    ∃ s, kv.2 = .vStr s ∧ '\n' ∉ s.data := by
  rcases kv with ⟨k, v⟩
  simp only [wfEntry, Bool.and_eq_true] at h
  cases v with
  | vStr s =>
    refine ⟨s, rfl, ?_⟩
    have h2 := h.2
    simp only [Bool.not_eq_true'] at h2
    intro hmem
    rw [List.contains_eq_any_beq] at h2
    simp only [List.any_eq_false, beq_iff_eq] at h2
    exact h2 '\n' hmem rfl
  | vInt n => simp at h
  | vNone => simp at h

theorem parseBlock_append (md : Metadata) (bl : List (List Char))
    (h : ∀ kv ∈ md, wfEntry kv = true) :
    parseBlock (md.map kvLine ++ ['-', '-', '-'] :: [] :: bl) = some (md, bl) := by
  induction md with
  | nil => rfl
  | cons kv md ih =>
    obtain ⟨hk, _⟩ := wfEntry_key kv (h kv (List.mem_cons_self kv md))
    obtain ⟨s, hs, _⟩ := wfEntry_val kv (h kv (List.mem_cons_self kv md))
    have hsplit : splitKV (kvLine kv) = some (kv.1.data, (valOut kv.2).data) := by
      simpa [kvLine] using splitKV_append kv.1.data (valOut kv.2).data hk
    have hih := ih (fun x hx => h x (List.mem_cons_of_mem kv hx))
    simp only [List.map_cons, List.cons_append, parseBlock, List.append_eq]
    rw [if_neg (kvLine_ne_dashes kv), hsplit, hih]
    rcases kv with ⟨k, v⟩
    simp only at hs
    subst hs
    rfl

/-- Round-trip fidelity of the spec-modelled serializer and parser on
well-formed posts; shared support for the round-trip claims. -/
theorem roundtrip_of_wf (p : Post) (h : wfPost p = true) :
    parsePost (serializePost p) = p := by
  have hall : ∀ kv ∈ p.metadata, wfEntry kv = true := List.all_eq_true.mp h
  have hlines : ∀ l ∈ (['-', '-', '-'] :: (p.metadata.map kvLine
      ++ ['-', '-', '-'] :: [] :: splitNl p.body.data)), '\n' ∉ l := by
    intro l hl
    rcases List.mem_cons.mp hl with hl | hl
    · subst hl; decide
    · rcases List.mem_append.mp hl with hl | hl
      · obtain ⟨kv, hkv, rfl⟩ := List.mem_map.mp hl
        obtain ⟨_, hknl⟩ := wfEntry_key kv (hall kv hkv)
        obtain ⟨s, hs, hsnl⟩ := wfEntry_val kv (hall kv hkv)
        intro hmem
        simp only [kvLine, List.mem_append, List.mem_cons] at hmem
        rcases hmem with hmem | hmem | hmem | hmem
        · exact hknl hmem
        · exact absurd hmem.symm (by decide)
        · exact absurd hmem.symm (by decide)
        · rw [hs] at hmem
          exact hsnl hmem
      · rcases List.mem_cons.mp hl with hl | hl
        · subst hl; decide
        · rcases List.mem_cons.mp hl with hl | hl
          · subst hl; simp
          · exact not_nl_of_mem_splitNl _ l hl
  unfold serializePost parsePost
  rw [show (String.mk (joinNl (['-', '-', '-'] :: (p.metadata.map kvLine
      ++ ['-', '-', '-'] :: [] :: splitNl p.body.data)))).data
    = joinNl (['-', '-', '-'] :: (p.metadata.map kvLine
      ++ ['-', '-', '-'] :: [] :: splitNl p.body.data)) from rfl]
  rw [splitNl_joinNl _ hlines (by simp)]
  dsimp only
  rw [if_pos rfl, parseBlock_append p.metadata (splitNl p.body.data) hall]
  dsimp only
  rw [joinNl_splitNl]

/-! ## Lemmas about the enricher -/

theorem enrich_body (gen : String → String → String) (fd : FileData) (p : Post) :
    (enrich gen fd p).1.body = p.body := by
  unfold enrich
  dsimp only
  split_ifs <;> rfl

theorem enrich_calls (gen : String → String → String) (fd : FileData) (p : Post) :
    (enrich gen fd p).2 = [] ∨
      (enrich gen fd p).2 = [(usedTitle fd p, fd.text.take 2000)] := by
  unfold enrich usedTitle
  dsimp only
  rw [show mget (if truthy (mget p.metadata "Created") then p.metadata
      else mset p.metadata "Created" (.vStr (fmtDate fd.creation_date))) "Title"
    = mget p.metadata "Title" by split_ifs with h; · rfl
                                 · exact mget_mset_ne _ _ _ _ (by decide)]
  split_ifs <;> simp

theorem mget_enrich_Created (gen : String → String → String) (fd : FileData) (p : Post)
    (h : truthy (mget p.metadata "Created") = true) :
    mget (enrich gen fd p).1.metadata "Created" = mget p.metadata "Created" := by
  unfold enrich
  dsimp only
  rw [if_pos h]
  split_ifs <;>
    simp [mget_mset_ne _ _ _ _ (show "Title" ≠ "Created" by decide),
      mget_mset_ne _ _ _ _ (show "Description" ≠ "Created" by decide)]

theorem mget_enrich_Title (gen : String → String → String) (fd : FileData) (p : Post)
    (h : truthy (mget p.metadata "Title") = true) :
    mget (enrich gen fd p).1.metadata "Title" = mget p.metadata "Title" := by
  unfold enrich
  dsimp only
  rw [show mget (if truthy (mget p.metadata "Created") then p.metadata
      else mset p.metadata "Created" (.vStr (fmtDate fd.creation_date))) "Title"
    = mget p.metadata "Title" by split_ifs with h1; · rfl
                                 · exact mget_mset_ne _ _ _ _ (by decide)]
  rw [if_pos h]
  split_ifs with h1 h2 <;>
    simp [mget_mset_ne _ _ _ _ (show "Created" ≠ "Title" by decide),
      mget_mset_ne _ _ _ _ (show "Description" ≠ "Title" by decide)]

theorem mget_enrich_Description (gen : String → String → String) (fd : FileData) (p : Post)
    (h : truthy (mget p.metadata "Description") = true) :
    mget (enrich gen fd p).1.metadata "Description" = mget p.metadata "Description" := by
  unfold enrich
  dsimp only
  split_ifs <;>
    simp_all [mget_mset_ne _ _ _ _ (show "Created" ≠ "Description" by decide),
      mget_mset_ne _ _ _ _ (show "Title" ≠ "Description" by decide)]

theorem filter_enrich_nonRecognized (gen : String → String → String) (fd : FileData) (p : Post) :
    (enrich gen fd p).1.metadata.filter nonRecognized = p.metadata.filter nonRecognized := by
  unfold enrich
  dsimp only
  have hC : ∀ w, nonRecognized ("Created", w) = false := fun w => rfl
  have hT : ∀ w, nonRecognized ("Title", w) = false := fun w => rfl
  have hD : ∀ w, nonRecognized ("Description", w) = false := fun w => rfl
  split_ifs <;>
    simp only [filter_mset _ _ _ _ hC, filter_mset _ _ _ _ hT, filter_mset _ _ _ _ hD]

theorem fmtDate_ne_empty (d : Date) : fmtDate d ≠ "" := by
  intro h
  have hlen : (fmtDate d).length = 0 := by rw [h]; rfl
  unfold fmtDate at hlen
  simp only [String.length_append] at hlen
  have h1 : ("-" : String).length = 1 := rfl
  rw [h1] at hlen
  omega

theorem enrich_noop (gen : String → String → String) (fd : FileData) (p : Post)
    (hC : truthy (mget p.metadata "Created") = true)
    (hT : truthy (mget p.metadata "Title") = true)
    (hD : truthy (mget p.metadata "Description") = true) :
    enrich gen fd p = (p, []) := by
  unfold enrich
  dsimp only
  rw [if_pos hC, if_pos hT, if_pos hT, if_pos hD]

theorem enrich_of_all_absent (gen : String → String → String) (fd : FileData) (p : Post)
    (hC : mget p.metadata "Created" = .vNone)
    (hT : mget p.metadata "Title" = .vNone)
    (hD : mget p.metadata "Description" = .vNone) :
    enrich gen fd p =
      ({ metadata := mset (mset (mset p.metadata
            "Created" (.vStr (fmtDate fd.creation_date)))
            "Title" (.vStr (create_title fd)))
            "Description" (.vStr (gen (create_title fd) (fd.text.take 2000))),
         body := p.body },
       [(create_title fd, fd.text.take 2000)]) := by
  unfold enrich describe_text
  dsimp only
  have c1 : truthy (mget p.metadata "Created") = false := by rw [hC]; rfl
  have c2 : truthy (mget (mset p.metadata "Created" (.vStr (fmtDate fd.creation_date)))
      "Title") = false := by
    rw [mget_mset_ne _ _ _ _ (by decide), hT]; rfl
  have c3 : truthy (mget (mset (mset p.metadata
      "Created" (.vStr (fmtDate fd.creation_date)))
      "Title" (.vStr (create_title fd))) "Description") = false := by
    rw [mget_mset_ne _ _ _ _ (by decide), mget_mset_ne _ _ _ _ (by decide), hD]; rfl
  rw [if_neg (show ¬truthy (mget p.metadata "Created") = true by simp [c1])]
  rw [if_neg (show ¬truthy (mget (mset p.metadata "Created"
    (.vStr (fmtDate fd.creation_date))) "Title") = true by simp [c2])]
  rw [if_neg (show ¬truthy (mget (mset (mset p.metadata "Created"
    (.vStr (fmtDate fd.creation_date))) "Title" (.vStr (create_title fd)))
    "Description") = true by simp [c3])]
  rw [if_neg (show ¬truthy (mget (mset p.metadata "Created"
    (.vStr (fmtDate fd.creation_date))) "Title") = true by simp [c2])]

theorem enrich_calls_nil (gen : String → String → String) (fd : FileData) (p : Post)
    (hD : truthy (mget p.metadata "Description") = true) :
    (enrich gen fd p).2 = [] := by
  unfold enrich
  dsimp only
  split_ifs <;>
    simp_all [mget_mset_ne _ _ _ _ (show "Created" ≠ "Description" by decide),
      mget_mset_ne _ _ _ _ (show "Title" ≠ "Description" by decide)]

theorem enrich_desc_absent (gen : String → String → String) (fd : FileData) (p : Post)
    (hD : truthy (mget p.metadata "Description") = false) :
    mget (enrich gen fd p).1.metadata "Description"
        = .vStr (gen (usedTitle fd p) (fd.text.take 2000)) ∧
      (enrich gen fd p).2 = [(usedTitle fd p, fd.text.take 2000)] := by
  unfold enrich usedTitle describe_text
  dsimp only
  rw [show mget (if truthy (mget p.metadata "Created") then p.metadata
      else mset p.metadata "Created" (.vStr (fmtDate fd.creation_date))) "Title"
    = mget p.metadata "Title" by split_ifs with h1; · rfl
                                 · exact mget_mset_ne _ _ _ _ (by decide)]
  split_ifs <;>
    simp_all [mget_mset_self, mget_mset_ne _ _ _ _ (show "Created" ≠ "Description" by decide),
      mget_mset_ne _ _ _ _ (show "Title" ≠ "Description" by decide)]

/-! ## Lemmas about the title derivation -/

theorem val_toNat_ofNat_valid (n : Nat) (h : n < 0xd800) : (Char.ofNat n).val.toNat = n := by
  rw [Char.ofNat, dif_pos (Or.inl h)]
  rfl

theorem alpha_val_range (c : Char) (h : c.isAlpha = true) :
    (65 ≤ c.val.toNat ∧ c.val.toNat ≤ 90) ∨ (97 ≤ c.val.toNat ∧ c.val.toNat ≤ 122) := by
  simp only [Char.isAlpha, Char.isUpper, Char.isLower, Bool.or_eq_true, Bool.and_eq_true,
    decide_eq_true_eq] at h
  rcases h with ⟨h1, h2⟩ | ⟨h1, h2⟩
  · left
    exact ⟨UInt32.le_toNat_of_le (by decide) h1, UInt32.toNat_le_of_le (by decide) h2⟩
  · right
    exact ⟨UInt32.le_toNat_of_le (by decide) h1, UInt32.toNat_le_of_le (by decide) h2⟩

theorem toUpper_val_range (c : Char) (h : c.isAlpha = true) :
    (65 ≤ c.toUpper.val.toNat ∧ c.toUpper.val.toNat ≤ 90)
      ∨ (97 ≤ c.toUpper.val.toNat ∧ c.toUpper.val.toNat ≤ 122) := by
  have hr := alpha_val_range c h
  rw [Char.toUpper]
  simp only [Char.toNat]
  split
  · next hc =>
    rw [val_toNat_ofNat_valid _ (by omega)]
    omega
  · next hc => omega

theorem toLower_val_range (c : Char) (h : c.isAlpha = true) :
    (65 ≤ c.toLower.val.toNat ∧ c.toLower.val.toNat ≤ 90)
      ∨ (97 ≤ c.toLower.val.toNat ∧ c.toLower.val.toNat ≤ 122) := by
  have hr := alpha_val_range c h
  rw [Char.toLower]
  simp only [Char.toNat]
  split
  · next hc =>
    rw [val_toNat_ofNat_valid _ (by omega)]
    omega
  · next hc => omega

theorem toUpper_ne_underscore (c : Char) (h : c.isAlpha = true) : c.toUpper ≠ '_' := by
  intro he
  have hr := toUpper_val_range c h
  rw [he] at hr
  rw [show ('_').val.toNat = 95 from rfl] at hr
  omega

theorem toLower_ne_underscore (c : Char) (h : c.isAlpha = true) : c.toLower ≠ '_' := by
  intro he
  have hr := toLower_val_range c h
  rw [he] at hr
  rw [show ('_').val.toNat = 95 from rfl] at hr
  omega

/-- Replacing underscores with spaces commutes with Python
word-capitalization: `s.title().replace('_', ' ')` equals
`s.replace('_', ' ').title()`. -/
theorem replUnderscore_pyTitleAux (b : Bool) (cs : List Char) :
    replUnderscore (pyTitleAux b cs) = pyTitleAux b (replUnderscore cs) := by
  induction cs generalizing b with
  | nil => rfl
  | cons c cs ih =>
    simp only [replUnderscore] at ih ⊢
    by_cases hc : c = '_'
    · subst hc
      simp [pyTitleAux, ih]
    · by_cases ha : c.isAlpha = true
      · have hu := toUpper_ne_underscore c ha
        have hl := toLower_ne_underscore c ha
        cases b with
        | true => simp [pyTitleAux, ih, ha, hc, hl]
        | false => simp [pyTitleAux, ih, ha, hc, hu]
      · simp [pyTitleAux, ih, ha, hc]

theorem create_title_eq_spec (fd : FileData) :
    create_title fd = spec_derived_title fd.path.stem := by
  unfold create_title spec_derived_title
  rw [replUnderscore_pyTitleAux]

theorem mget_enrich_Title_absent (gen : String → String → String) (fd : FileData) (p : Post)
    (h : truthy (mget p.metadata "Title") = false) :
    mget (enrich gen fd p).1.metadata "Title" = .vStr (create_title fd) := by
  unfold enrich
  dsimp only
  rw [show mget (if truthy (mget p.metadata "Created") then p.metadata
      else mset p.metadata "Created" (.vStr (fmtDate fd.creation_date))) "Title"
    = mget p.metadata "Title" by split_ifs with h1; · rfl
                                 · exact mget_mset_ne _ _ _ _ (by decide)]
  split_ifs <;>
    simp_all [mget_mset_self,
      mget_mset_ne _ _ _ _ (show "Description" ≠ "Title" by decide)]

/-! ## Lemmas about date formatting -/

theorem digitChar_ne_nl (m : Nat) : Nat.digitChar m ≠ '\n' := by
  by_cases h : m < 16
  · interval_cases m <;> decide
  · have hstar : Nat.digitChar m = '*' := by
      unfold Nat.digitChar
      iterate 16 rw [if_neg (by omega)]
    rw [hstar]
    decide

theorem toDigitsCore_mem (b : Nat) (f : Nat) :
    ∀ (n : Nat) (l : List Char) (c : Char), c ∈ Nat.toDigitsCore b f n l →
      c ∈ l ∨ ∃ m, c = Nat.digitChar m := by
  induction f with
  | zero =>
    intro n l c hc
    exact Or.inl hc
  | succ f ih =>
    intro n l c hc
    simp only [Nat.toDigitsCore] at hc
    split at hc
    · rcases List.mem_cons.mp hc with hc | hc
      · exact Or.inr ⟨n % b, hc⟩
      · exact Or.inl hc
    · rcases ih (n / b) (Nat.digitChar (n % b) :: l) c hc with hc | hc
      · rcases List.mem_cons.mp hc with hc | hc
        · exact Or.inr ⟨n % b, hc⟩
        · exact Or.inl hc
      · exact Or.inr hc

theorem repr_no_nl (n : Nat) : '\n' ∉ (Nat.repr n).data := by
  intro hmem
  have : '\n' ∈ Nat.toDigits 10 n := hmem
  rcases toDigitsCore_mem 10 (n + 1) n [] '\n' this with h | ⟨m, hm⟩
  · simp at h
  · exact digitChar_ne_nl m hm.symm

theorem pad2_no_nl (n : Nat) : '\n' ∉ (pad2 n).data := by
  unfold pad2
  rw [String.data_append]
  intro hmem
  rcases List.mem_append.mp hmem with h | h
  · split_ifs at h <;> simp at h
  · exact repr_no_nl n h

theorem pad4_no_nl (n : Nat) : '\n' ∉ (pad4 n).data := by
  unfold pad4
  rw [String.data_append]
  intro hmem
  rcases List.mem_append.mp hmem with h | h
  · split_ifs at h <;> simp at h
  · exact repr_no_nl n h

theorem fmtDate_no_nl (d : Date) : '\n' ∉ (fmtDate d).data := by
  unfold fmtDate
  simp only [String.data_append]
  intro hmem
  simp only [List.mem_append] at hmem
  rcases hmem with (((h | h) | h) | h) | h
  · exact pad4_no_nl d.year h
  · simp at h
  · exact pad2_no_nl d.month h
  · simp at h
  · exact pad2_no_nl d.day h

theorem contains_eq_false_of_not_mem (l : List Char) (c : Char) (h : c ∉ l) :
    l.contains c = false := by
  rw [List.contains_eq_any_beq]
  simp only [List.any_eq_false, beq_iff_eq]
  intro a ha hac
  exact h (hac ▸ ha)

/-- Degenerate behaviour of the parser on inputs without a well-formed
leading metadata block; shared support for the parser claims. -/
theorem parsePost_no_block (s : String) (h : hasBlock s = false) :
    parsePost s = { metadata := [], body := s } := by
  unfold parsePost
  unfold hasBlock at h
  cases hs : splitNl s.data with
  | nil => rfl
  | cons l rest =>
    dsimp only at h ⊢
    by_cases hl : l = ['-', '-', '-']
    · rw [if_pos hl]
      cases hp : parseBlock rest with
      | none => rfl
      | some x =>
        rw [hs] at h
        dsimp only at h
        rw [hl, hp] at h
        simp at h
    · rw [if_neg hl]

/-- Re-enriching a note whose three keys were just filled in returns
it unchanged; when the filled title and description are non-empty the
three presence checks short-circuit and no generator call is made. -/
theorem enrich_refill (gen : String → String → String) (fd : FileData)
    (m : Metadata) (b : String) :
    (enrich gen fd ⟨mset (mset (mset m "Created" (.vStr (fmtDate fd.creation_date)))
        "Title" (.vStr (create_title fd))) "Description"
        (.vStr (gen (create_title fd) (fd.text.take 2000))), b⟩).1
      = ⟨mset (mset (mset m "Created" (.vStr (fmtDate fd.creation_date)))
        "Title" (.vStr (create_title fd))) "Description"
        (.vStr (gen (create_title fd) (fd.text.take 2000))), b⟩ ∧
      (create_title fd ≠ "" → gen (create_title fd) (fd.text.take 2000) ≠ "" →
        enrich gen fd ⟨mset (mset (mset m "Created" (.vStr (fmtDate fd.creation_date)))
          "Title" (.vStr (create_title fd))) "Description"
          (.vStr (gen (create_title fd) (fd.text.take 2000))), b⟩
        = (⟨mset (mset (mset m "Created" (.vStr (fmtDate fd.creation_date)))
          "Title" (.vStr (create_title fd))) "Description"
          (.vStr (gen (create_title fd) (fd.text.take 2000))), b⟩, [])) := by
  have hC3 : mget (mset (mset (mset m "Created" (.vStr (fmtDate fd.creation_date)))
      "Title" (.vStr (create_title fd))) "Description"
      (.vStr (gen (create_title fd) (fd.text.take 2000)))) "Created"
      = .vStr (fmtDate fd.creation_date) := by
    rw [mget_mset_ne _ _ _ _ (by decide), mget_mset_ne _ _ _ _ (by decide), mget_mset_self]
  have hT3 : mget (mset (mset (mset m "Created" (.vStr (fmtDate fd.creation_date)))
      "Title" (.vStr (create_title fd))) "Description"
      (.vStr (gen (create_title fd) (fd.text.take 2000)))) "Title"
      = .vStr (create_title fd) := by
    rw [mget_mset_ne _ _ _ _ (by decide), mget_mset_self]
  have hD3 : mget (mset (mset (mset m "Created" (.vStr (fmtDate fd.creation_date)))
      "Title" (.vStr (create_title fd))) "Description"
      (.vStr (gen (create_title fd) (fd.text.take 2000)))) "Description"
      = .vStr (gen (create_title fd) (fd.text.take 2000)) := mget_mset_self _ _ _
  have hCt : truthy (mget (mset (mset (mset m "Created" (.vStr (fmtDate fd.creation_date)))
      "Title" (.vStr (create_title fd))) "Description"
      (.vStr (gen (create_title fd) (fd.text.take 2000)))) "Created") = true := by
    rw [hC3]
    simpa [truthy] using fmtDate_ne_empty fd.creation_date
  constructor
  · unfold enrich
    dsimp only
    rw [if_pos hCt, hT3]
    by_cases htt : truthy (.vStr (create_title fd)) = true
    · rw [if_pos htt, if_pos htt]
      by_cases hdd : truthy (mget (mset (mset (mset m "Created"
          (.vStr (fmtDate fd.creation_date))) "Title" (.vStr (create_title fd)))
          "Description" (.vStr (gen (create_title fd) (fd.text.take 2000)))) "Description")
          = true
      · rw [if_pos hdd]
      · rw [if_neg hdd]
        dsimp only
        unfold describe_text
        rw [mset_eq_of_mem _ _ _ (by rw [hD3]; exact fun hx => Value.noConfusion hx) hD3]
    · rw [if_neg htt, if_neg htt]
      rw [mset_eq_of_mem _ _ _ (by rw [hT3]; exact fun hx => Value.noConfusion hx) hT3]
      by_cases hdd : truthy (mget (mset (mset (mset m "Created"
          (.vStr (fmtDate fd.creation_date))) "Title" (.vStr (create_title fd)))
          "Description" (.vStr (gen (create_title fd) (fd.text.take 2000)))) "Description")
          = true
      · rw [if_pos hdd]
      · rw [if_neg hdd]
        dsimp only
        unfold describe_text
        rw [mset_eq_of_mem _ _ _ (by rw [hD3]; exact fun hx => Value.noConfusion hx) hD3]
  · intro ht hg
    apply enrich_noop
    · exact hCt
    · rw [hT3]
      simpa [truthy] using ht
    · rw [hD3]
      simpa [truthy] using hg

/-! ## The claims -/

/-- C1: for every Note produced by the Enricher (well-formed: metadata
mapping of the recognized keys plus body), serializing it and parsing
the result yields a metadata mapping and body equal to the original
Note. -/
theorem claim_C1_roundtrip (p : Post) (h : wfPost p = true) :
    parsePost (serializePost p) = p :=
  roundtrip_of_wf p h

theorem claim_C1_roundtrip_witness :
    wfPost ⟨[("Created", Value.vStr "2024-05-07"), ("Title", Value.vStr "Pytexas 2024"),
        ("Description", Value.vStr "A short note.")], "hello\nworld"⟩ = true ∧
      parsePost (serializePost ⟨[("Created", Value.vStr "2024-05-07"),
          ("Title", Value.vStr "Pytexas 2024"),
          ("Description", Value.vStr "A short note.")], "hello\nworld"⟩)
        = ⟨[("Created", Value.vStr "2024-05-07"), ("Title", Value.vStr "Pytexas 2024"),
          ("Description", Value.vStr "A short note.")], "hello\nworld"⟩ :=
  ⟨by decide, claim_C1_roundtrip _ (by decide)⟩

/-- C3: for every note and source file, `enrich` never removes and
never overwrites an existing non-empty (truthy) value of the keys
`Created`, `Title` or `Description`: if such a key is truthy before
enrichment, it maps to the same value afterwards. -/
theorem claim_C3_never_overwrites (gen : String → String → String) (fd : FileData) (p : Post)
    (k : String) (hk : k = "Created" ∨ k = "Title" ∨ k = "Description")
    (h : truthy (mget p.metadata k) = true) :
    mget (enrich gen fd p).1.metadata k = mget p.metadata k := by
  rcases hk with rfl | rfl | rfl
  · exact mget_enrich_Created gen fd p h
  · exact mget_enrich_Title gen fd p h
  · exact mget_enrich_Description gen fd p h

theorem claim_C3_never_overwrites_witness :
    (("Title" : String) = "Created" ∨ ("Title" : String) = "Title"
        ∨ ("Title" : String) = "Description") ∧
      truthy (mget [("Title", Value.vInt 5)] "Title") = true ∧
      mget (enrich (fun _ _ => "G")
          { text := "b", path := { stem := "s" }, creation_date := ⟨2024, 1, 2⟩ }
          { metadata := [("Title", Value.vInt 5)], body := "b" }).1.metadata "Title"
        = mget ({ metadata := [("Title", Value.vInt 5)], body := "b" } : Post).metadata "Title" :=
  ⟨Or.inr (Or.inl rfl), by decide,
    claim_C3_never_overwrites _ _ _ _ (Or.inr (Or.inl rfl)) (by decide)⟩

/-- C4: for every per-file processing run, if loading or enrichment
(including the Description Generator call) fails with an error, the
filesystem is left unchanged for that file and the run continues with
the remaining files instead of aborting. -/
theorem claim_C4_per_file_errors_isolated (gen : String → String → Except PErr String)
    (fs : FS) (p : String) (rest : List String) (e : PErr)
    (h : loadAndEnrich gen fs p = .error e) :
    process_file gen fs p = fs ∧ runFiles gen fs (p :: rest) = runFiles gen fs rest := by
  have h1 : process_file gen fs p = fs := by
    unfold process_file
    rw [h]
  refine ⟨h1, ?_⟩
  show runFiles gen (process_file gen fs p) rest = runFiles gen fs rest
  rw [h1]

theorem claim_C4_per_file_errors_isolated_witness :
    loadAndEnrich (fun _ _ => Except.error PErr.generation)
        [("note.md", { content := "hello", cdate := ⟨2024, 1, 2⟩ })] "note.md"
      = Except.error PErr.generation ∧
      (process_file (fun _ _ => Except.error PErr.generation)
          [("note.md", { content := "hello", cdate := ⟨2024, 1, 2⟩ })] "note.md"
        = [("note.md", { content := "hello", cdate := ⟨2024, 1, 2⟩ })] ∧
       runFiles (fun _ _ => Except.error PErr.generation)
          [("note.md", { content := "hello", cdate := ⟨2024, 1, 2⟩ })] ["note.md", "a.md"]
        = runFiles (fun _ _ => Except.error PErr.generation)
          [("note.md", { content := "hello", cdate := ⟨2024, 1, 2⟩ })] ["a.md"]) :=
  ⟨rfl, claim_C4_per_file_errors_isolated _ _ _ ["a.md"] PErr.generation rfl⟩

/-- C5: parse is total — it is a Lean function on all input strings —
and on any input without a well-formed leading delimited metadata block
(malformed ones included) it returns an empty metadata mapping and the
entire input as the body. -/
theorem claim_C5_parse_total_degrades (s : String) (h : hasBlock s = false) :
    parsePost s = { metadata := [], body := s } :=
  parsePost_no_block s h

theorem claim_C5_parse_total_degrades_witness :
    hasBlock "---\nTitle broken" = false ∧
      parsePost "---\nTitle broken" = { metadata := [], body := "---\nTitle broken" } :=
  ⟨by decide, claim_C5_parse_total_degrades _ (by decide)⟩

/-- C10: implicit frame property — for every note and source file,
`enrich` leaves the note's body unchanged and leaves the subsequence of
metadata entries with keys other than `Created`, `Title`, `Description`
unchanged in presence, order and value. -/
theorem claim_C10_frame (gen : String → String → String) (fd : FileData) (p : Post) :
    (enrich gen fd p).1.body = p.body ∧
      (enrich gen fd p).1.metadata.filter nonRecognized = p.metadata.filter nonRecognized :=
  ⟨enrich_body gen fd p, filter_enrich_nonRecognized gen fd p⟩

/-- C2: for every note in which `Created`, `Title` and `Description`
are all initially missing, one application of `enrich` populates all
three keys, and applying `enrich` a second time returns the note
unchanged; when the derived title and the generated description are
non-empty (the generator contract), all three presence checks
short-circuit on the second run and no generator call is made. -/
theorem claim_C2_populates_and_idempotent (gen : String → String → String)
    (fd : FileData) (p : Post)
    (hC : mget p.metadata "Created" = .vNone)
    (hT : mget p.metadata "Title" = .vNone)
    (hD : mget p.metadata "Description" = .vNone) :
    mget (enrich gen fd p).1.metadata "Created" ≠ .vNone ∧
      mget (enrich gen fd p).1.metadata "Title" ≠ .vNone ∧
      mget (enrich gen fd p).1.metadata "Description" ≠ .vNone ∧
      (enrich gen fd (enrich gen fd p).1).1 = (enrich gen fd p).1 ∧
      (create_title fd ≠ "" → gen (create_title fd) (fd.text.take 2000) ≠ "" →
        enrich gen fd (enrich gen fd p).1 = ((enrich gen fd p).1, [])) := by
  rw [enrich_of_all_absent gen fd p hC hT hD]
  dsimp only
  refine ⟨?_, ?_, ?_, (enrich_refill gen fd p.metadata p.body).1,
    (enrich_refill gen fd p.metadata p.body).2⟩
  · rw [mget_mset_ne _ _ _ _ (by decide), mget_mset_ne _ _ _ _ (by decide), mget_mset_self]
    exact fun hx => Value.noConfusion hx
  · rw [mget_mset_ne _ _ _ _ (by decide), mget_mset_self]
    exact fun hx => Value.noConfusion hx
  · rw [mget_mset_self]
    exact fun hx => Value.noConfusion hx

theorem claim_C2_populates_and_idempotent_witness :
    mget ([] : Metadata) "Created" = .vNone ∧
      mget ([] : Metadata) "Title" = .vNone ∧
      mget ([] : Metadata) "Description" = .vNone ∧
      (mget (enrich (fun _ _ => "A note.") ⟨"hello", ⟨"my_note"⟩, ⟨2024, 5, 7⟩⟩
          ⟨[], "hello"⟩).1.metadata "Created" ≠ .vNone ∧
        mget (enrich (fun _ _ => "A note.") ⟨"hello", ⟨"my_note"⟩, ⟨2024, 5, 7⟩⟩
          ⟨[], "hello"⟩).1.metadata "Title" ≠ .vNone ∧
        mget (enrich (fun _ _ => "A note.") ⟨"hello", ⟨"my_note"⟩, ⟨2024, 5, 7⟩⟩
          ⟨[], "hello"⟩).1.metadata "Description" ≠ .vNone ∧
        (enrich (fun _ _ => "A note.") ⟨"hello", ⟨"my_note"⟩, ⟨2024, 5, 7⟩⟩
            (enrich (fun _ _ => "A note.") ⟨"hello", ⟨"my_note"⟩, ⟨2024, 5, 7⟩⟩
              ⟨[], "hello"⟩).1).1
          = (enrich (fun _ _ => "A note.") ⟨"hello", ⟨"my_note"⟩, ⟨2024, 5, 7⟩⟩
              ⟨[], "hello"⟩).1 ∧
        (create_title ⟨"hello", ⟨"my_note"⟩, ⟨2024, 5, 7⟩⟩ ≠ "" →
          (fun _ _ => "A note.") (create_title ⟨"hello", ⟨"my_note"⟩, ⟨2024, 5, 7⟩⟩)
            (String.take (FileData.text ⟨"hello", ⟨"my_note"⟩, ⟨2024, 5, 7⟩⟩) 2000) ≠ "" →
          enrich (fun _ _ => "A note.") ⟨"hello", ⟨"my_note"⟩, ⟨2024, 5, 7⟩⟩
              (enrich (fun _ _ => "A note.") ⟨"hello", ⟨"my_note"⟩, ⟨2024, 5, 7⟩⟩
                ⟨[], "hello"⟩).1
            = ((enrich (fun _ _ => "A note.") ⟨"hello", ⟨"my_note"⟩, ⟨2024, 5, 7⟩⟩
                ⟨[], "hello"⟩).1, []))) :=
  ⟨rfl, rfl, rfl, claim_C2_populates_and_idempotent _ _ _ rfl rfl rfl⟩

/-- C6 (counterexample): the claim "the note's Title after enrich is
the string form of the original non-string value" is false: for a note
whose `Title` is the truthy non-string value `5`, the stored `Title`
after enrichment is still `5`, not its string form `"5"`. -/
theorem claim_C6_counterexample :
    mget (enrich (fun _ _ => "G") ⟨"b", ⟨"s"⟩, ⟨2024, 1, 2⟩⟩
        ⟨[("Title", Value.vInt 5), ("Created", Value.vStr "2024-01-02"),
          ("Description", Value.vStr "d")], "b"⟩).1.metadata "Title" = Value.vInt 5 ∧
      Value.vInt 5 ≠ Value.vStr (pyStr (Value.vInt 5)) := by
  constructor
  · rfl
  · decide

/-- C6 (amended): for every note whose `Title` is present, non-empty
and not a string, `enrich` keeps the stored `Title` unchanged; the
coercion to string form applies only to the local title that is passed
to the Description Generator when `Description` is missing, and the
coercion by itself invokes no generator call (none is made when
`Description` is already non-empty). -/
theorem claim_C6_nonstring_title (gen : String → String → String) (fd : FileData) (p : Post)
    (h1 : truthy (mget p.metadata "Title") = true)
    (h2 : isStrV (mget p.metadata "Title") = false) :
    mget (enrich gen fd p).1.metadata "Title" = mget p.metadata "Title" ∧
      usedTitle fd p = pyStr (mget p.metadata "Title") ∧
      (truthy (mget p.metadata "Description") = true → (enrich gen fd p).2 = []) ∧
      (truthy (mget p.metadata "Description") = false →
        (enrich gen fd p).2 = [(pyStr (mget p.metadata "Title"), fd.text.take 2000)]) := by
  have hu : usedTitle fd p = pyStr (mget p.metadata "Title") := by
    unfold usedTitle
    dsimp only
    rw [if_pos h1]
    cases hm : mget p.metadata "Title" with
    | vStr s => rw [hm] at h2; simp [isStrV] at h2
    | vInt n => rfl
    | vNone => rw [hm] at h1; simp [truthy] at h1
  refine ⟨mget_enrich_Title gen fd p h1, hu,
    fun hD => enrich_calls_nil gen fd p hD, fun hD => ?_⟩
  have h3 := (enrich_desc_absent gen fd p hD).2
  rw [hu] at h3
  exact h3

theorem claim_C6_nonstring_title_witness :
    truthy (mget [("Title", Value.vInt 5)] "Title") = true ∧
      isStrV (mget [("Title", Value.vInt 5)] "Title") = false ∧
      (mget (enrich (fun _ _ => "G") ⟨"b", ⟨"s"⟩, ⟨2024, 1, 2⟩⟩
          ⟨[("Title", Value.vInt 5)], "b"⟩).1.metadata "Title"
          = mget ([("Title", Value.vInt 5)] : Metadata) "Title" ∧
        usedTitle ⟨"b", ⟨"s"⟩, ⟨2024, 1, 2⟩⟩ ⟨[("Title", Value.vInt 5)], "b"⟩
          = pyStr (mget ([("Title", Value.vInt 5)] : Metadata) "Title") ∧
        (truthy (mget ([("Title", Value.vInt 5)] : Metadata) "Description") = true →
          (enrich (fun _ _ => "G") ⟨"b", ⟨"s"⟩, ⟨2024, 1, 2⟩⟩
            ⟨[("Title", Value.vInt 5)], "b"⟩).2 = []) ∧
        (truthy (mget ([("Title", Value.vInt 5)] : Metadata) "Description") = false →
          (enrich (fun _ _ => "G") ⟨"b", ⟨"s"⟩, ⟨2024, 1, 2⟩⟩
            ⟨[("Title", Value.vInt 5)], "b"⟩).2
            = [(pyStr (mget ([("Title", Value.vInt 5)] : Metadata) "Title"),
                String.take "b" 2000)])) :=
  ⟨rfl, rfl, claim_C6_nonstring_title _ _ _ rfl rfl⟩

/-- C7 (counterexample): the claim "stores the trimmed generator
result" is false: the code stores the generator's result verbatim, so a
generator returning `" padded "` leaves a `Description` that differs
from its trimmed form. -/
theorem claim_C7_counterexample :
    mget (enrich (fun _ _ => " padded ") ⟨"b", ⟨"s"⟩, ⟨2024, 1, 2⟩⟩
        ⟨[("Created", Value.vStr "c"), ("Title", Value.vStr "T")], "b"⟩).1.metadata "Description"
      = Value.vStr " padded " ∧
      Value.vStr " padded " ≠ Value.vStr (pyStrip " padded ") := by
  constructor
  · rfl
  · decide

/-- C7 (amended): for every note whose `Description` is absent or
empty, `enrich` invokes the Description Generator exactly once, with
the pair (title, first 2000 characters of the source file's raw text)
where title is the possibly just-computed local title, and stores the
generator's result verbatim (not trimmed) as the note's
`Description`. -/
theorem claim_C7_description_generation (gen : String → String → String)
    (fd : FileData) (p : Post)
    (hD : truthy (mget p.metadata "Description") = false) :
    mget (enrich gen fd p).1.metadata "Description"
        = .vStr (gen (usedTitle fd p) (fd.text.take 2000)) ∧
      (enrich gen fd p).2 = [(usedTitle fd p, fd.text.take 2000)] :=
  enrich_desc_absent gen fd p hD

theorem claim_C7_description_generation_witness :
    truthy (mget [("Title", Value.vStr "T")] "Description") = false ∧
      (mget (enrich (fun t e => "about " ++ t ++ "/" ++ e) ⟨"body", ⟨"s"⟩, ⟨2024, 1, 2⟩⟩
          ⟨[("Title", Value.vStr "T")], "body"⟩).1.metadata "Description"
          = Value.vStr ((fun t e => "about " ++ t ++ "/" ++ e)
            (usedTitle ⟨"body", ⟨"s"⟩, ⟨2024, 1, 2⟩⟩ ⟨[("Title", Value.vStr "T")], "body"⟩)
            (String.take "body" 2000)) ∧
        (enrich (fun t e => "about " ++ t ++ "/" ++ e) ⟨"body", ⟨"s"⟩, ⟨2024, 1, 2⟩⟩
          ⟨[("Title", Value.vStr "T")], "body"⟩).2
          = [(usedTitle ⟨"body", ⟨"s"⟩, ⟨2024, 1, 2⟩⟩ ⟨[("Title", Value.vStr "T")], "body"⟩,
              String.take "body" 2000)]) :=
  ⟨rfl, claim_C7_description_generation _ _ _ rfl⟩

/-- C8: for every file whose content has no metadata block at all,
after one full processing pass (parse, enrich, serialize) the written
file parses back to metadata with exactly the keys `Created`, `Title`,
`Description` (in that order) and nothing else, and to a body that is
identical to the original file content.  The side conditions ask that
the derived title and generated description are single-line, which the
spec-modelled serializer needs. -/
theorem claim_C8_file_without_block (gen : String → String → String) (fd : FileData)
    (h : hasBlock fd.text = false)
    (hT : '\n' ∉ (create_title fd).data)
    (hG : '\n' ∉ (gen (create_title fd) (fd.text.take 2000)).data) :
    (parsePost (save_file_content (process_post gen fd).1)).metadata.map Prod.fst
        = ["Created", "Title", "Description"] ∧
      (parsePost (save_file_content (process_post gen fd).1)).body = fd.text := by
  unfold process_post save_file_content
  rw [parsePost_no_block fd.text h]
  rw [enrich_of_all_absent gen fd (⟨[], fd.text⟩ : Post) rfl rfl rfl]
  dsimp only
  have hm : mset (mset (mset ([] : Metadata) "Created" (.vStr (fmtDate fd.creation_date)))
      "Title" (.vStr (create_title fd))) "Description"
      (.vStr (gen (create_title fd) (fd.text.take 2000)))
      = [("Created", .vStr (fmtDate fd.creation_date)),
         ("Title", .vStr (create_title fd)),
         ("Description", .vStr (gen (create_title fd) (fd.text.take 2000)))] := rfl
  rw [hm]
  have hwf : wfPost ⟨[("Created", .vStr (fmtDate fd.creation_date)),
      ("Title", .vStr (create_title fd)),
      ("Description", .vStr (gen (create_title fd) (fd.text.take 2000)))], fd.text⟩ = true := by
    unfold wfPost wfEntry
    simp only [List.all_cons, List.all_nil, Bool.and_eq_true, Bool.and_true]
    simp
    exact ⟨fmtDate_no_nl fd.creation_date, hT, hG⟩
  rw [roundtrip_of_wf _ hwf]
  exact ⟨rfl, rfl⟩

theorem claim_C8_file_without_block_witness :
    hasBlock (FileData.text ⟨"hello world", ⟨"my_note"⟩, ⟨2024, 5, 7⟩⟩) = false ∧
      '\n' ∉ (create_title ⟨"hello world", ⟨"my_note"⟩, ⟨2024, 5, 7⟩⟩).data ∧
      '\n' ∉ ((fun _ _ => "A note.")
        (create_title ⟨"hello world", ⟨"my_note"⟩, ⟨2024, 5, 7⟩⟩)
        (String.take (FileData.text ⟨"hello world", ⟨"my_note"⟩, ⟨2024, 5, 7⟩⟩) 2000)).data ∧
      ((parsePost (save_file_content (process_post (fun _ _ => "A note.")
          ⟨"hello world", ⟨"my_note"⟩, ⟨2024, 5, 7⟩⟩).1)).metadata.map Prod.fst
          = ["Created", "Title", "Description"] ∧
        (parsePost (save_file_content (process_post (fun _ _ => "A note.")
          ⟨"hello world", ⟨"my_note"⟩, ⟨2024, 5, 7⟩⟩).1)).body
          = FileData.text ⟨"hello world", ⟨"my_note"⟩, ⟨2024, 5, 7⟩⟩) :=
  ⟨by decide, by decide, by decide,
    claim_C8_file_without_block _ _ (by decide) (by decide) (by decide)⟩

/-- C9: for every source file whose note lacks a (truthy) `Title`,
enrichment stores a `Title` computed deterministically from the
filename stem alone, equal to the spec's derivation (underscores
replaced by spaces, each word capitalized); in particular the stem
`pytexas_2024` yields the Title `Pytexas 2024`. -/
theorem claim_C9_title_from_stem (gen : String → String → String) (fd : FileData) (p : Post)
    (h : truthy (mget p.metadata "Title") = false) :
    mget (enrich gen fd p).1.metadata "Title" = .vStr (spec_derived_title fd.path.stem) ∧
      (fd.path.stem = "pytexas_2024" →
        mget (enrich gen fd p).1.metadata "Title" = .vStr "Pytexas 2024") := by
  have h1 := mget_enrich_Title_absent gen fd p h
  rw [create_title_eq_spec fd] at h1
  refine ⟨h1, fun hs => ?_⟩
  rw [h1, hs]
  rfl

theorem claim_C9_title_from_stem_witness :
    truthy (mget ([] : Metadata) "Title") = false ∧
      (mget (enrich (fun _ _ => "G") ⟨"x", ⟨"pytexas_2024"⟩, ⟨2024, 5, 7⟩⟩
          ⟨[], "x"⟩).1.metadata "Title"
          = Value.vStr (spec_derived_title (PyPath.stem ⟨"pytexas_2024"⟩)) ∧
        (PyPath.stem ⟨"pytexas_2024"⟩ = "pytexas_2024" →
          mget (enrich (fun _ _ => "G") ⟨"x", ⟨"pytexas_2024"⟩, ⟨2024, 5, 7⟩⟩
            ⟨[], "x"⟩).1.metadata "Title" = Value.vStr "Pytexas 2024")) :=
  ⟨rfl, claim_C9_title_from_stem _ _ _ rfl⟩

end TidyNotes
